import Mathlib

set_option maxHeartbeats 1000000

/-!
Verification of the sparse matrix multiplication engine.

The source program multiplies a matrix stored in Compressed Row Storage
(CRS, called CSR in the source) by a matrix stored in Compressed Column
Storage (CCS), producing a CRS matrix.  This file gives a shallow
embedding of the data structures and of the functions
sparse_matrix_multiply (src/sparse_matrix_multiply.c) and
matrix_multiply (the dense triple-loop collaborator), and proves the
specified properties about them.

Modelling conventions: C int arrays become Lean lists; matrix values are
modelled as unbounded integers and indices as naturals; an array read
a[i] becomes a.getD i 0; each C loop becomes a structurally recursive
function whose fuel argument is instantiated with the exact iteration
bound of the loop, so the embedded functions compute by kernel
reduction.
-/

/-- A matrix in Compressed Row Storage format, translated from
struct CSR_Matrix (src/sparse_matrix_multiply.c, lines 17-29):
val holds the non-zero values, col_ind the corresponding column
indices, row_ptr the start of each row inside val/col_ind. -/
structure CSR_Matrix where
  val : List Int
  col_ind : List Nat
  row_ptr : List Nat
  num_rows : Nat
  num_cols : Nat

/-- A matrix in Compressed Column Storage format, translated from
struct CCS_Matrix (src/sparse_matrix_multiply.c, lines 35-41). -/
structure CCS_Matrix where
  val : List Int
  row_ind : List Nat
  col_ptr : List Nat
  num_rows : Nat
  num_cols : Nat

/-- Well-formedness of a CRS matrix, from the data-model invariants:
row_ptr has length rows + 1, starts at 0, is non-decreasing and ends at
nnz; col_ind has the same length as val, is strictly increasing inside
each row slice, and all its entries are below num_cols. -/
def CSR_Matrix.WF (X : CSR_Matrix) : Prop :=
  X.row_ptr.length = X.num_rows + 1 ∧
  X.row_ptr.getD 0 0 = 0 ∧
  (∀ i, i < X.num_rows → X.row_ptr.getD i 0 ≤ X.row_ptr.getD (i + 1) 0) ∧
  X.row_ptr.getD X.num_rows 0 = X.val.length ∧
  X.col_ind.length = X.val.length ∧
  (∀ i, i < X.num_rows → ∀ q, q < X.col_ind.length → ∀ p, p < q →
    X.row_ptr.getD i 0 ≤ p → q < X.row_ptr.getD (i + 1) 0 →
    X.col_ind.getD p 0 < X.col_ind.getD q 0) ∧
  (∀ p, p < X.col_ind.length → X.col_ind.getD p 0 < X.num_cols)

/-- Well-formedness of a CCS matrix: the CRS invariants transposed. -/
def CCS_Matrix.WF (Y : CCS_Matrix) : Prop :=
  Y.col_ptr.length = Y.num_cols + 1 ∧
  Y.col_ptr.getD 0 0 = 0 ∧
  (∀ j, j < Y.num_cols → Y.col_ptr.getD j 0 ≤ Y.col_ptr.getD (j + 1) 0) ∧
  Y.col_ptr.getD Y.num_cols 0 = Y.val.length ∧
  Y.row_ind.length = Y.val.length ∧
  (∀ j, j < Y.num_cols → ∀ q, q < Y.row_ind.length → ∀ p, p < q →
    Y.col_ptr.getD j 0 ≤ p → q < Y.col_ptr.getD (j + 1) 0 →
    Y.row_ind.getD p 0 < Y.row_ind.getD q 0) ∧
  (∀ q, q < Y.row_ind.length → Y.row_ind.getD q 0 < Y.num_rows)

instance (X : CSR_Matrix) : Decidable X.WF := by
  unfold CSR_Matrix.WF
  exact inferInstance

instance (Y : CCS_Matrix) : Decidable Y.WF := by
  unfold CCS_Matrix.WF
  exact inferInstance

/-- The cursor-advance while loop of sparse_matrix_multiply
(lines 90-91): while (Y.row_ind[y] < t && y < e) y++, where t is the
current X entry's column index and e the end of Y's column slice.  The
fuel argument is instantiated with e - y, the exact bound on the number
of iterations of the loop. -/
def advanceY (row_ind : List Nat) (t e : Nat) : Nat → Nat → Nat
  | 0, y => y
  | fuel + 1, y =>
    if row_ind.getD y 0 < t ∧ y < e then advanceY row_ind t e fuel (y + 1) else y

/-- The inner for loop over X's row slice (lines 88-99): b is the end
of X's row slice, e the end of Y's column slice, x the position in X's
row, y the shared cursor in Y's column, acc the dot product accumulator.
The fuel argument is instantiated with b - x. -/
def dotLoop (X : CSR_Matrix) (Y : CCS_Matrix) (b e : Nat) : Nat → Nat → Nat → Int → Int
  | 0, _, _, acc => acc
  | fuel + 1, x, y, acc =>
    if x < b then
      let y2 := advanceY Y.row_ind (X.col_ind.getD x 0) e (e - y) y
      if e ≤ y2 then acc
      else
        dotLoop X Y b e fuel (x + 1) y2
          (if Y.row_ind.getD y2 0 = X.col_ind.getD x 0 then
            acc + X.val.getD x 0 * Y.val.getD y2 0
          else acc)
    else acc

/-- The dot product computed for output cell (i, j) (lines 82-99):
starts at X.row_ptr[i] in X's row and Y.col_ptr[j] in Y's column. -/
def dotProductAt (X : CSR_Matrix) (Y : CCS_Matrix) (i j : Nat) : Int :=
  dotLoop X Y (X.row_ptr.getD (i + 1) 0) (Y.col_ptr.getD (j + 1) 0)
    (X.row_ptr.getD (i + 1) 0 - X.row_ptr.getD i 0)
    (X.row_ptr.getD i 0) (Y.col_ptr.getD j 0) 0

/-- The mutable state of sparse_matrix_multiply: the two operands and
the scratch output buffers z_val, z_col_ind, z_row_ptr together with
z_val_count (lines 71-76).  The C code only ever writes to the z
fields; X and Y are only read. -/
structure MultState where
  X : CSR_Matrix
  Y : CCS_Matrix
  z_val : List Int
  z_col_ind : List Nat
  z_row_ptr : List Nat
  z_val_count : Nat

/-- One iteration of the column loop body for output cell (i, j)
(lines 81-107): compute the dot product and, when it is non-zero,
append it together with its column index to the scratch buffers. -/
def cellStep (i j : Nat) (s : MultState) : MultState :=
  let d := dotProductAt s.X s.Y i j
  if d ≠ 0 then
    { s with
      z_val := s.z_val ++ [d]
      z_col_ind := s.z_col_ind ++ [j]
      z_val_count := s.z_val_count + 1 }
  else s

/-- One iteration of the row loop body (lines 78-110): run the column
loop for row i, then record z_row_ptr[i + 1] = z_row_ptr[i] +
cur_row_val_count, where cur_row_val_count is the number of values
emitted during this row (the growth of z_val_count). -/
def rowStep (i : Nat) (s : MultState) : MultState :=
  let s2 := (List.range s.Y.num_cols).foldl (fun t j => cellStep i j t) s
  { s2 with
    z_row_ptr := s2.z_row_ptr ++ [s2.z_row_ptr.getD i 0 + (s2.z_val_count - s.z_val_count)] }

/-- The whole row loop (lines 78-110). -/
def runMultiply (s : MultState) : MultState :=
  (List.range s.X.num_rows).foldl (fun t i => rowStep i t) s

/-- The initial scratch state (lines 71-76): empty buffers and
z_row_ptr[0] = 0. -/
def initState (X : CSR_Matrix) (Y : CCS_Matrix) : MultState :=
  { X := X, Y := Y, z_val := [], z_col_ind := [], z_row_ptr := [0], z_val_count := 0 }

/-- The error taxonomy of the engine: DimensionMismatch is the only
engine-specific failure (in the C source it prints a diagnostic and
exits). -/
inductive MatrixError where
  | DimensionMismatch
deriving DecidableEq

/-- Translation of sparse_matrix_multiply (lines 57-123): check the
dimensions, run the loops on the initial state, and copy the realized
entries of the scratch buffers into the result matrix of shape
X.num_rows by Y.num_cols. -/
def sparse_matrix_multiply (X : CSR_Matrix) (Y : CCS_Matrix) :
    Except MatrixError CSR_Matrix :=
  if X.num_cols ≠ Y.num_rows then .error .DimensionMismatch
  else
    let s := runMultiply (initState X Y)
    .ok { val := s.z_val, col_ind := s.z_col_ind, row_ptr := s.z_row_ptr,
          num_rows := X.num_rows, num_cols := Y.num_cols }

/-- Translation of matrix_multiply (src/unnamed/part_000, lines 23-54),
the dense triple-loop collaborator: a 2D array is a list of rows. -/
def matrix_multiply (X Y : List (List Int)) (x_rows x_cols y_rows y_cols : Nat) :
    Except MatrixError (List (List Int)) :=
  if x_cols ≠ y_rows then .error .DimensionMismatch
  else
    .ok ((List.range x_rows).map fun i =>
      (List.range y_cols).map fun j =>
        (List.range x_cols).foldl
          (fun acc k => acc + (X.getD i []).getD k 0 * (Y.getD k []).getD j 0) 0)

/-- Dense interpretation of a CRS matrix: entry (i, j) is the sum of the
stored values of row i whose column index is j (at most one such value
exists for a well-formed matrix). -/
def CSR_Matrix.dense (X : CSR_Matrix) (i j : Nat) : Int :=
  ∑ p ∈ Finset.Ico (X.row_ptr.getD i 0) (X.row_ptr.getD (i + 1) 0),
    if X.col_ind.getD p 0 = j then X.val.getD p 0 else 0

/-- Dense interpretation of a CCS matrix. -/
def CCS_Matrix.dense (Y : CCS_Matrix) (i j : Nat) : Int :=
  ∑ q ∈ Finset.Ico (Y.col_ptr.getD j 0) (Y.col_ptr.getD (j + 1) 0),
    if Y.row_ind.getD q 0 = i then Y.val.getD q 0 else 0

/-- Dense form of a CRS matrix as a list of rows. -/
def CSR_Matrix.toDense (X : CSR_Matrix) : List (List Int) :=
  (List.range X.num_rows).map fun i => (List.range X.num_cols).map fun j => X.dense i j

/-- Dense form of a CCS matrix as a list of rows. -/
def CCS_Matrix.toDense (Y : CCS_Matrix) : List (List Int) :=
  (List.range Y.num_rows).map fun i => (List.range Y.num_cols).map fun j => Y.dense i j

/-- The entries emitted for output row i, in emission order: for each
column j in increasing order, the pair (dot product, j) when the dot
product is non-zero.  This is the functional reading of the column loop
(lines 81-107); the characterization lemmas below prove that runMultiply
produces exactly these entries. -/
def rowEnts (X : CSR_Matrix) (Y : CCS_Matrix) (i : Nat) : List (Int × Nat) :=
  (List.range Y.num_cols).filterMap fun j =>
    if dotProductAt X Y i j ≠ 0 then some (dotProductAt X Y i j, j) else none

/-- Cumulative number of entries emitted before row i: the value of
z_row_ptr[i]. -/
def cumLen (X : CSR_Matrix) (Y : CCS_Matrix) (i : Nat) : Nat :=
  ((List.range i).map fun r => (rowEnts X Y r).length).sum

/-- All emitted entries in order. -/
def entsFlat (X : CSR_Matrix) (Y : CCS_Matrix) : List (Int × Nat) :=
  ((List.range X.num_rows).map (rowEnts X Y)).flatten

/-- The output matrix of the multiply in functional form. -/
def zSpec (X : CSR_Matrix) (Y : CCS_Matrix) : CSR_Matrix :=
  { val := (entsFlat X Y).map Prod.fst
    col_ind := (entsFlat X Y).map Prod.snd
    row_ptr := (List.range (X.num_rows + 1)).map (cumLen X Y)
    num_rows := X.num_rows
    num_cols := Y.num_cols }

/-- Instrumentation of the cursor-advance while loop (lines 90-91)
recording the indices at which Y.row_ind is read.  In the C source the
condition Y.row_ind[y] < t is evaluated before the bound y < e, so every
evaluation of the loop condition, including the final failing one, reads
Y.row_ind at the current cursor position. -/
def advanceYReads (row_ind : List Nat) (t e : Nat) : Nat → Nat → List Nat
  | 0, y => [y]
  | fuel + 1, y =>
    if row_ind.getD y 0 < t ∧ y < e then y :: advanceYReads row_ind t e fuel (y + 1)
    else [y]

/-- Instrumentation of the inner for loop (lines 88-99) recording the
indices at which Y.row_ind is read: the reads of the while condition,
and, when the slice is not exhausted, the read of the equality test on
line 97. -/
def dotLoopYReads (X : CSR_Matrix) (Y : CCS_Matrix) (b e : Nat) : Nat → Nat → Nat → List Nat
  | 0, _, _ => []
  | fuel + 1, x, y =>
    if x < b then
      let y2 := advanceY Y.row_ind (X.col_ind.getD x 0) e (e - y) y
      advanceYReads Y.row_ind (X.col_ind.getD x 0) e (e - y) y ++
        (if e ≤ y2 then []
         else y2 :: dotLoopYReads X Y b e fuel (x + 1) y2)
    else []

/-- The indices at which Y.row_ind is read while computing output cell
(i, j). -/
def cellYReads (X : CSR_Matrix) (Y : CCS_Matrix) (i j : Nat) : List Nat :=
  dotLoopYReads X Y (X.row_ptr.getD (i + 1) 0) (Y.col_ptr.getD (j + 1) 0)
    (X.row_ptr.getD (i + 1) 0 - X.row_ptr.getD i 0)
    (X.row_ptr.getD i 0) (Y.col_ptr.getD j 0)

/-- A 1 by 1 CRS matrix holding the single value 2. -/
def exX : CSR_Matrix :=
  { val := [2], col_ind := [0], row_ptr := [0, 1], num_rows := 1, num_cols := 1 }

/-- A 1 by 1 CCS matrix holding the single value 3. -/
def exY : CCS_Matrix :=
  { val := [3], row_ind := [0], col_ptr := [0, 1], num_rows := 1, num_cols := 1 }

/-- The product of exX and exY. -/
def exZ : CSR_Matrix :=
  { val := [6], col_ind := [0], row_ptr := [0, 1], num_rows := 1, num_cols := 1 }

/-- A 1 by 1 CRS matrix with one stored entry, used to exhibit the
out-of-bounds read of the cursor loop. -/
def oobX : CSR_Matrix :=
  { val := [1], col_ind := [0], row_ptr := [0, 1], num_rows := 1, num_cols := 1 }

/-- A 1 by 1 CCS matrix with no stored entries: its only column slice is
empty and ends exactly at the end of the (empty) row_ind array. -/
def oobY : CCS_Matrix :=
  { val := [], row_ind := [], col_ptr := [0, 0], num_rows := 1, num_cols := 1 }

/-- The left operand of the test case built in main
(src/sparse_matrix_multiply.c, lines 238-258): a 7 by 5 CRS matrix. -/
def mainX : CSR_Matrix :=
  { val := [2, 4, 3, 1, 6, 2]
    col_ind := [0, 3, 2, 0, 1, 4]
    row_ptr := [0, 2, 2, 3, 4, 4, 5, 6]
    num_rows := 7
    num_cols := 5 }

/-- The right operand of the test case built in main (lines 260-285):
a 5 by 6 CCS matrix. -/
def mainY : CCS_Matrix :=
  { val := [3, 11, 2, 3, 5, 4, 2, 6, 5]
    row_ind := [0, 4, 1, 1, 3, 0, 1, 2, 4]
    col_ptr := [0, 2, 3, 5, 6, 8, 9]
    num_rows := 5
    num_cols := 6 }

/-! ### List helper lemmas -/

/-- Reading a mapped range at an in-range index. -/
lemma getD_map_range {α : Type} (f : Nat → α) {n i : Nat} (h : i < n) (d : α) :
    ((List.range n).map f).getD i d = f i := by
  rw [List.getD_eq_getElem?_getD, List.getElem?_map, List.getElem?_range h]
  rfl

/-- Reading the first components of a pair list. -/
lemma getD_map_fst (l : List (Int × Nat)) {p : Nat} (h : p < l.length) :
    (l.map Prod.fst).getD p 0 = (l.getD p (0, 0)).1 := by
  rw [List.getD_eq_getElem?_getD, List.getElem?_map, List.getElem?_eq_getElem h,
    List.getD_eq_getElem l (0, 0) h]
  rfl

/-- Reading the second components of a pair list. -/
lemma getD_map_snd (l : List (Int × Nat)) {p : Nat} (h : p < l.length) :
    (l.map Prod.snd).getD p 0 = (l.getD p (0, 0)).2 := by
  rw [List.getD_eq_getElem?_getD, List.getElem?_map, List.getElem?_eq_getElem h,
    List.getD_eq_getElem l (0, 0) h]
  rfl

/-- Reading a flattened list of lists at an offset position. -/
lemma flatten_getD {α : Type} (d : α) :
    ∀ (L : List (List α)) (i : Nat), i < L.length → ∀ r, r < (L.getD i []).length →
      L.flatten.getD (((L.take i).map List.length).sum + r) d = (L.getD i []).getD r d := by
  intro L
  induction L with
  | nil => intro i hi; simp at hi
  | cons x xs ih =>
    intro i hi r hr
    cases i with
    | zero =>
      simp only [List.getD_cons_zero] at hr ⊢
      simp only [List.take_zero, List.map_nil, List.sum_nil, Nat.zero_add,
        List.flatten_cons]
      exact List.getD_append x xs.flatten d r hr
    | succ i2 =>
      simp only [List.getD_cons_succ] at hr ⊢
      simp only [List.take_succ_cons, List.map_cons, List.sum_cons, List.flatten_cons]
      rw [Nat.add_assoc]
      rw [List.getD_append_right x xs.flatten d _ (Nat.le_add_right _ _)]
      rw [Nat.add_sub_cancel_left]
      exact ih i2 (by simpa using hi) r hr

/-- A positional sum over a list equals the sum of the mapped list. -/
lemma sum_range_getD {α : Type} (d : α) (f : α → Int) :
    ∀ (l : List α), ∑ r ∈ Finset.range l.length, f (l.getD r d) = (l.map f).sum := by
  intro l
  induction l with
  | nil => simp
  | cons a l ih =>
    rw [List.length_cons, Finset.sum_range_succ']
    simp only [List.getD_cons_succ, List.getD_cons_zero, List.map_cons, List.sum_cons]
    rw [ih, Int.add_comm]

/-- Summing a function over a filterMap. -/
lemma sum_map_filterMap {β γ : Type} (g : β → Option γ) (h : γ → Int) :
    ∀ (l : List β),
      ((l.filterMap g).map h).sum = (l.map fun b => ((g b).map h).getD 0).sum := by
  intro l
  induction l with
  | nil => simp
  | cons b l ih =>
    cases hgb : g b with
    | none => simp [List.filterMap_cons, hgb, ih]
    | some c => simp [List.filterMap_cons, hgb, ih]

/-- A mapped range sum equals the corresponding Finset sum. -/
lemma sum_map_range (f : Nat → Int) :
    ∀ n, ((List.range n).map f).sum = ∑ r ∈ Finset.range n, f r := by
  intro n
  induction n with
  | zero => simp
  | succ n ih =>
    rw [List.range_succ, List.map_append, List.sum_append, Finset.sum_range_succ, ih]
    simp

/-- filterMap with a value-preserving function preserves pairwise relations. -/
lemma pairwise_filterMap_of_eq {α : Type} {R : α → α → Prop} (f : α → Option α)
    (hf : ∀ a b, f a = some b → b = a) :
    ∀ (l : List α), l.Pairwise R → (l.filterMap f).Pairwise R := by
  intro l
  induction l with
  | nil => intro _; simp
  | cons a l ih =>
    intro hp
    rcases List.pairwise_cons.mp hp with ⟨ha, hl⟩
    rw [List.filterMap_cons]
    cases hfa : f a with
    | none => exact ih hl
    | some b =>
      refine List.Pairwise.cons ?_ (ih hl)
      intro c hc
      rcases List.mem_filterMap.mp hc with ⟨a2, ha2, hfa2⟩
      rw [hf a b hfa, hf a2 c hfa2]
      exact ha a2 ha2

/-- A sum of naturals each bounded by c is bounded by the length times c. -/
lemma sum_map_le_length_mul {β : Type} (f : β → Nat) (c : Nat) :
    ∀ (l : List β), (∀ b ∈ l, f b ≤ c) → (l.map f).sum ≤ l.length * c := by
  intro l
  induction l with
  | nil => intro _; simp
  | cons a l ih =>
    intro h
    rw [List.map_cons, List.sum_cons, List.length_cons, Nat.succ_mul]
    have h1 := h a (List.mem_cons_self a l)
    have h2 := ih (fun b hb => h b (List.mem_cons_of_mem a hb))
    rw [Nat.add_comm (l.length * c) c]
    exact Nat.add_le_add h1 h2

/-! ### Properties of the cursor-advance loop -/

/-- The cursor never moves backwards. -/
lemma le_advanceY (row_ind : List Nat) (t e : Nat) :
    ∀ fuel y, y ≤ advanceY row_ind t e fuel y := by
  intro fuel
  induction fuel with
  | zero => intro y; simp [advanceY]
  | succ fuel ih =>
    intro y
    simp only [advanceY]
    split
    · exact Nat.le_trans (Nat.le_succ y) (ih (y + 1))
    · exact Nat.le_refl y

/-- The cursor never moves past the maximum of its start and the slice end. -/
lemma advanceY_le_max (row_ind : List Nat) (t e : Nat) :
    ∀ fuel y, advanceY row_ind t e fuel y ≤ max y e := by
  intro fuel
  induction fuel with
  | zero => intro y; simp [advanceY]
  | succ fuel ih =>
    intro y
    simp only [advanceY]
    split
    · rename_i hc
      have h1 := ih (y + 1)
      have h2 : max (y + 1) e = e := Nat.max_eq_right hc.2
      rw [h2] at h1
      exact Nat.le_trans h1 (Nat.le_max_right y e)
    · exact Nat.le_max_left y e

/-- When the cursor starts inside the slice it stays bounded by the slice end. -/
lemma advanceY_le (row_ind : List Nat) (t e fuel y : Nat) (h : y ≤ e) :
    advanceY row_ind t e fuel y ≤ e := by
  have h1 := advanceY_le_max row_ind t e fuel y
  rwa [Nat.max_eq_right h] at h1

/-- Full characterization of the cursor-advance loop when run with its exact
fuel: the result lies between the start and the slice end, every skipped
position holds a row index below the target, and if the slice is not
exhausted the final position holds a row index at or above the target. -/
lemma advanceY_bounds (row_ind : List Nat) (t e : Nat) :
    ∀ fuel y, fuel = e - y → y ≤ e →
      y ≤ advanceY row_ind t e fuel y ∧
      advanceY row_ind t e fuel y ≤ e ∧
      (∀ q, y ≤ q → q < advanceY row_ind t e fuel y → row_ind.getD q 0 < t) ∧
      (advanceY row_ind t e fuel y < e → t ≤ row_ind.getD (advanceY row_ind t e fuel y) 0) := by
  intro fuel
  induction fuel with
  | zero =>
    intro y hf hy
    have hye : y = e := by omega
    simp only [advanceY]
    exact ⟨Nat.le_refl y, hy, fun q hq1 hq2 => absurd hq2 (by omega), fun h => by omega⟩
  | succ fuel ih =>
    intro y hf hy
    have hylt : y < e := by omega
    simp only [advanceY]
    by_cases hc : row_ind.getD y 0 < t ∧ y < e
    · rw [if_pos hc]
      obtain ⟨h1, h2, h3, h4⟩ := ih (y + 1) (by omega) (by omega)
      refine ⟨Nat.le_trans (Nat.le_succ y) h1, h2, ?_, h4⟩
      intro q hq1 hq2
      rcases Nat.lt_or_ge q (y + 1) with h | h
      · have : q = y := by omega
        rw [this]
        exact hc.1
      · exact h3 q h hq2
    · rw [if_neg hc]
      refine ⟨Nat.le_refl y, hy, fun q hq1 hq2 => absurd hq2 (by omega), ?_⟩
      intro _
      have : ¬ row_ind.getD y 0 < t := fun ha => hc ⟨ha, hylt⟩
      omega

/-- Giving the loop any fuel at least its exact bound yields the same
result: the while loop stabilizes within e - y iterations. -/
lemma advanceY_fuel_ge (row_ind : List Nat) (t e : Nat) :
    ∀ fuel y, e - y ≤ fuel →
      advanceY row_ind t e fuel y = advanceY row_ind t e (e - y) y := by
  intro fuel
  induction fuel with
  | zero =>
    intro y h
    have h0 : e - y = 0 := Nat.le_zero.mp h
    rw [h0]
  | succ fuel ih =>
    intro y h
    by_cases hc : row_ind.getD y 0 < t ∧ y < e
    · have he : e - y = (e - (y + 1)) + 1 := by omega
      rw [he]
      simp only [advanceY]
      rw [if_pos hc, if_pos hc]
      exact ih (y + 1) (by omega)
    · have hr : advanceY row_ind t e (e - y) y = y := by
        cases he : e - y with
        | zero => simp [advanceY]
        | succ k =>
          simp only [advanceY]
          rw [if_neg hc]
      rw [hr]
      simp only [advanceY]
      rw [if_neg hc]

/-! ### Correctness of the merge-style dot product -/

/-- The true contribution of X entry p to the dot product against Y's
column slice between c and e: the sum of the products with the matching
Y entries (at most one for a well-formed Y). -/
def pairContrib (X : CSR_Matrix) (Y : CCS_Matrix) (c e p : Nat) : Int :=
  ∑ q ∈ Finset.Ico c e,
    if Y.row_ind.getD q 0 = X.col_ind.getD p 0
    then X.val.getD p 0 * Y.val.getD q 0 else 0

/-- Loop invariant proof for the inner for loop: when both slices are
strictly increasing, the merge-style co-traversal with the shared Y
cursor accumulates exactly the sum of the contributions of the remaining
X entries. -/
lemma dotLoop_eq_sum (X : CSR_Matrix) (Y : CCS_Matrix) (a b c e : Nat)
    (hXmono : ∀ p q, a ≤ p → p < q → q < b → X.col_ind.getD p 0 < X.col_ind.getD q 0)
    (hYmono : ∀ p q, c ≤ p → p < q → q < e → Y.row_ind.getD p 0 < Y.row_ind.getD q 0) :
    ∀ fuel x y acc, fuel = b - x → a ≤ x → x ≤ b → c ≤ y → y ≤ e →
      (∀ q, c ≤ q → q < y → x < b → Y.row_ind.getD q 0 < X.col_ind.getD x 0) →
      dotLoop X Y b e fuel x y acc =
        acc + ∑ p ∈ Finset.Ico x b, pairContrib X Y c e p := by
  intro fuel
  induction fuel with
  | zero =>
    intro x y acc hf hax hxb hcy hye hinv
    have hxb2 : x = b := by omega
    subst hxb2
    simp [dotLoop]
  | succ fuel ih =>
    intro x y acc hf hax hxb hcy hye hinv
    have hxlt : x < b := by omega
    simp only [dotLoop]
    rw [if_pos hxlt]
    obtain ⟨h1, h2, h3, h4⟩ :=
      advanceY_bounds Y.row_ind (X.col_ind.getD x 0) e (e - y) y rfl hye
    set y2 := advanceY Y.row_ind (X.col_ind.getD x 0) e (e - y) y with hy2
    have hlt : ∀ q, c ≤ q → q < y2 → Y.row_ind.getD q 0 < X.col_ind.getD x 0 := by
      intro q hq1 hq2
      rcases Nat.lt_or_ge q y with h | h
      · exact hinv q hq1 h hxlt
      · exact h3 q h hq2
    by_cases hbreak : e ≤ y2
    · rw [if_pos hbreak]
      have hcontrib : ∀ p ∈ Finset.Ico x b, pairContrib X Y c e p = 0 := by
        intro p hp
        rw [Finset.mem_Ico] at hp
        apply Finset.sum_eq_zero
        intro q hq
        rw [Finset.mem_Ico] at hq
        have hqlt : Y.row_ind.getD q 0 < X.col_ind.getD x 0 := hlt q hq.1 (by omega)
        have hxp : X.col_ind.getD x 0 ≤ X.col_ind.getD p 0 := by
          rcases Nat.eq_or_lt_of_le hp.1 with h | h
          · rw [h]
          · exact Nat.le_of_lt (hXmono x p hax h hp.2)
        rw [if_neg (by omega)]
      rw [Finset.sum_eq_zero hcontrib, add_zero]
    · rw [if_neg hbreak]
      have hy2e : y2 < e := by omega
      have hcy2 : c ≤ y2 := Nat.le_trans hcy h1
      have hrec := ih (x + 1) y2
        (if Y.row_ind.getD y2 0 = X.col_ind.getD x 0 then
          acc + X.val.getD x 0 * Y.val.getD y2 0 else acc)
        (by omega) (by omega) (by omega) hcy2 h2 ?_
      · rw [hrec, Finset.sum_eq_sum_Ico_succ_bot hxlt]
        by_cases hm : Y.row_ind.getD y2 0 = X.col_ind.getD x 0
        · rw [if_pos hm]
          have hx : pairContrib X Y c e x = X.val.getD x 0 * Y.val.getD y2 0 := by
            unfold pairContrib
            rw [Finset.sum_eq_single_of_mem y2 (Finset.mem_Ico.mpr ⟨hcy2, hy2e⟩), if_pos hm]
            intro q hq hne
            rw [Finset.mem_Ico] at hq
            rcases Nat.lt_or_ge q y2 with h | h
            · have := hlt q hq.1 h
              rw [if_neg (by omega)]
            · have hq2 : y2 < q := by omega
              have := hYmono y2 q hcy2 hq2 hq.2
              rw [if_neg (by omega)]
          rw [hx]
          ring
        · rw [if_neg hm]
          have hx : pairContrib X Y c e x = 0 := by
            apply Finset.sum_eq_zero
            intro q hq
            rw [Finset.mem_Ico] at hq
            rcases Nat.lt_or_ge q y2 with h | h
            · have := hlt q hq.1 h
              rw [if_neg (by omega)]
            · rcases Nat.eq_or_lt_of_le h with h2 | h2
              · rw [← h2]
                rw [if_neg hm]
              · have hgt := hYmono y2 q hcy2 h2 hq.2
                have h42 := h4 hy2e
                rw [if_neg (by omega)]
          rw [hx]
          ring
      · intro q hq1 hq2 hxb2
        have hq3 := hlt q hq1 hq2
        have hq4 := hXmono x (x + 1) hax (Nat.lt_succ_self x) hxb2
        omega

/-- Chained monotonicity of row_ptr for a well-formed CRS matrix. -/
lemma CSR_rowPtr_mono (X : CSR_Matrix) (hX : X.WF) :
    ∀ i i2, i ≤ i2 → i2 ≤ X.num_rows → X.row_ptr.getD i 0 ≤ X.row_ptr.getD i2 0 := by
  obtain ⟨_, _, hmono, _, _, _, _⟩ := hX
  intro i i2 h h2
  have key : ∀ k, i + k ≤ X.num_rows →
      X.row_ptr.getD i 0 ≤ X.row_ptr.getD (i + k) 0 := by
    intro k
    induction k with
    | zero => intro _; simp
    | succ k ih =>
      intro hk
      have hs := hmono (i + k) (by omega)
      have hp := ih (by omega)
      calc X.row_ptr.getD i 0 ≤ X.row_ptr.getD (i + k) 0 := hp
        _ ≤ X.row_ptr.getD (i + k + 1) 0 := hs
  have hk := key (i2 - i) (by omega)
  rwa [Nat.add_sub_cancel' h] at hk

/-- Chained monotonicity of col_ptr for a well-formed CCS matrix. -/
lemma CCS_colPtr_mono (Y : CCS_Matrix) (hY : Y.WF) :
    ∀ j j2, j ≤ j2 → j2 ≤ Y.num_cols → Y.col_ptr.getD j 0 ≤ Y.col_ptr.getD j2 0 := by
  obtain ⟨_, _, hmono, _, _, _, _⟩ := hY
  intro j j2 h h2
  have key : ∀ k, j + k ≤ Y.num_cols →
      Y.col_ptr.getD j 0 ≤ Y.col_ptr.getD (j + k) 0 := by
    intro k
    induction k with
    | zero => intro _; simp
    | succ k ih =>
      intro hk
      have hs := hmono (j + k) (by omega)
      have hp := ih (by omega)
      calc Y.col_ptr.getD j 0 ≤ Y.col_ptr.getD (j + k) 0 := hp
        _ ≤ Y.col_ptr.getD (j + k + 1) 0 := hs
  have hk := key (j2 - j) (by omega)
  rwa [Nat.add_sub_cancel' h] at hk

/-- The merge-style dot product equals the sum of the entry-pair
contributions of X's row i against Y's column j. -/
lemma dotProductAt_eq_pairSum (X : CSR_Matrix) (Y : CCS_Matrix)
    (hX : X.WF) (hY : Y.WF) (i j : Nat) (hi : i < X.num_rows) (hj : j < Y.num_cols) :
    dotProductAt X Y i j =
      ∑ p ∈ Finset.Ico (X.row_ptr.getD i 0) (X.row_ptr.getD (i + 1) 0),
        pairContrib X Y (Y.col_ptr.getD j 0) (Y.col_ptr.getD (j + 1) 0) p := by
  have hXW := hX
  have hYW := hY
  obtain ⟨hlenX, h0X, hmonoX, hendX, hcolX, hstrictX, hboundX⟩ := hXW
  obtain ⟨hlenY, h0Y, hmonoY, hendY, hrowY, hstrictY, hboundY⟩ := hYW
  have hab : X.row_ptr.getD i 0 ≤ X.row_ptr.getD (i + 1) 0 := hmonoX i hi
  have hce : Y.col_ptr.getD j 0 ≤ Y.col_ptr.getD (j + 1) 0 := hmonoY j hj
  have hbLen : X.row_ptr.getD (i + 1) 0 ≤ X.col_ind.length := by
    have := CSR_rowPtr_mono X hX (i + 1) X.num_rows (by omega) (Nat.le_refl _)
    omega
  have heLen : Y.col_ptr.getD (j + 1) 0 ≤ Y.row_ind.length := by
    have := CCS_colPtr_mono Y hY (j + 1) Y.num_cols (by omega) (Nat.le_refl _)
    omega
  unfold dotProductAt
  rw [dotLoop_eq_sum X Y (X.row_ptr.getD i 0) (X.row_ptr.getD (i + 1) 0)
    (Y.col_ptr.getD j 0) (Y.col_ptr.getD (j + 1) 0) ?_ ?_ _ _ _ _ rfl
    (Nat.le_refl _) hab (Nat.le_refl _) hce ?_]
  · rw [zero_add]
  · intro p q hp hpq hq
    exact hstrictX i hi q (by omega) p hpq hp hq
  · intro p q hp hpq hq
    exact hstrictY j hj q (by omega) p hpq hp hq
  · intro q hq1 hq2 _
    omega

/-- The sum of pair contributions equals the textbook dot product of the
dense forms of row i of X and column j of Y. -/
lemma pairSum_eq_denseSum (X : CSR_Matrix) (Y : CCS_Matrix)
    (hX : X.WF) (hY : Y.WF) (i j : Nat) (hi : i < X.num_rows) :
    ∑ p ∈ Finset.Ico (X.row_ptr.getD i 0) (X.row_ptr.getD (i + 1) 0),
        pairContrib X Y (Y.col_ptr.getD j 0) (Y.col_ptr.getD (j + 1) 0) p =
      ∑ k ∈ Finset.range X.num_cols, X.dense i k * Y.dense k j := by
  have hXW := hX
  obtain ⟨hlenX, h0X, hmonoX, hendX, hcolX, hstrictX, hboundX⟩ := hXW
  have hbLen : X.row_ptr.getD (i + 1) 0 ≤ X.col_ind.length := by
    have := CSR_rowPtr_mono X hX (i + 1) X.num_rows (by omega) (Nat.le_refl _)
    omega
  have step1 : ∀ k, X.dense i k * Y.dense k j =
      ∑ p ∈ Finset.Ico (X.row_ptr.getD i 0) (X.row_ptr.getD (i + 1) 0),
        ∑ q ∈ Finset.Ico (Y.col_ptr.getD j 0) (Y.col_ptr.getD (j + 1) 0),
          (if X.col_ind.getD p 0 = k then X.val.getD p 0 else 0) *
          (if Y.row_ind.getD q 0 = k then Y.val.getD q 0 else 0) := by
    intro k
    unfold CSR_Matrix.dense CCS_Matrix.dense
    rw [Finset.sum_mul_sum]
  rw [Finset.sum_congr rfl (fun k _ => step1 k)]
  rw [Finset.sum_comm]
  apply Finset.sum_congr rfl
  intro p hp
  rw [Finset.mem_Ico] at hp
  rw [Finset.sum_comm]
  unfold pairContrib
  apply Finset.sum_congr rfl
  intro q _
  have hcx : X.col_ind.getD p 0 < X.num_cols := hboundX p (by omega)
  simp only [ite_mul, mul_ite, zero_mul, mul_zero]
  rw [Finset.sum_ite_eq (Finset.range X.num_cols) (Y.row_ind.getD q 0)]
  by_cases hm : Y.row_ind.getD q 0 = X.col_ind.getD p 0
  · rw [if_pos hm, if_pos (Finset.mem_range.mpr (by omega)), if_pos hm.symm]
  · rw [if_neg hm]
    by_cases hmem : Y.row_ind.getD q 0 ∈ Finset.range X.num_cols
    · rw [if_pos hmem, if_neg (fun h => hm h.symm)]
    · rw [if_neg hmem]

/-- The merge-style dot product computes the true dot product of the
dense forms. -/
lemma dotProductAt_correct (X : CSR_Matrix) (Y : CCS_Matrix)
    (hX : X.WF) (hY : Y.WF) (i j : Nat) (hi : i < X.num_rows) (hj : j < Y.num_cols) :
    dotProductAt X Y i j = ∑ k ∈ Finset.range X.num_cols, X.dense i k * Y.dense k j :=
  (dotProductAt_eq_pairSum X Y hX hY i j hi hj).trans
    (pairSum_eq_denseSum X Y hX hY i j hi)

/-! ### Characterization of the emission loops -/

/-- The column loop for row i appends exactly the non-zero dot products
of that row, in column order, to the scratch buffers, leaving row_ptr
and the operands untouched. -/
lemma foldl_cellStep (X : CSR_Matrix) (Y : CCS_Matrix) (i : Nat) :
    ∀ (n : Nat) (zv : List Int) (zc : List Nat) (zp : List Nat) (cnt : Nat),
      (List.range n).foldl (fun t j => cellStep i j t)
          ⟨X, Y, zv, zc, zp, cnt⟩ =
        ⟨X, Y,
          zv ++ ((List.range n).filterMap fun j =>
            if dotProductAt X Y i j ≠ 0
            then some (dotProductAt X Y i j, j) else none).map Prod.fst,
          zc ++ ((List.range n).filterMap fun j =>
            if dotProductAt X Y i j ≠ 0
            then some (dotProductAt X Y i j, j) else none).map Prod.snd,
          zp,
          cnt + ((List.range n).filterMap fun j =>
            if dotProductAt X Y i j ≠ 0
            then some (dotProductAt X Y i j, j) else none).length⟩ := by
  intro n
  induction n with
  | zero => intro zv zc zp cnt; simp
  | succ n ih =>
    intro zv zc zp cnt
    rw [List.range_succ, List.foldl_append, ih]
    simp only [List.foldl_cons, List.foldl_nil, List.filterMap_append]
    unfold cellStep
    by_cases hd : dotProductAt X Y i n ≠ 0
    · simp [hd, List.filterMap_cons, List.append_assoc, Nat.add_assoc]
    · simp [hd, List.filterMap_cons]

/-- One row-loop iteration appends row i's entries and records the next
row pointer. -/
lemma rowStep_spec (X : CSR_Matrix) (Y : CCS_Matrix) (i : Nat)
    (zv : List Int) (zc : List Nat) (zp : List Nat) (cnt : Nat) :
    rowStep i ⟨X, Y, zv, zc, zp, cnt⟩ =
      ⟨X, Y, zv ++ (rowEnts X Y i).map Prod.fst, zc ++ (rowEnts X Y i).map Prod.snd,
        zp ++ [zp.getD i 0 + (rowEnts X Y i).length],
        cnt + (rowEnts X Y i).length⟩ := by
  unfold rowStep
  rw [foldl_cellStep]
  simp only [rowEnts, Nat.add_sub_cancel_left]

/-- The whole row loop builds exactly the functional entry lists and the
cumulative row pointers. -/
lemma foldl_rowStep (X : CSR_Matrix) (Y : CCS_Matrix) :
    ∀ m, (List.range m).foldl (fun t i => rowStep i t) (initState X Y) =
      ⟨X, Y,
        ((List.range m).map (rowEnts X Y)).flatten.map Prod.fst,
        ((List.range m).map (rowEnts X Y)).flatten.map Prod.snd,
        (List.range (m + 1)).map (cumLen X Y),
        ((List.range m).map (rowEnts X Y)).flatten.length⟩ := by
  intro m
  induction m with
  | zero =>
    simp [initState, cumLen, List.range_succ]
  | succ m ih =>
    have h1 : (List.range (m + 1)).foldl (fun t i => rowStep i t) (initState X Y) =
        rowStep m ((List.range m).foldl (fun t i => rowStep i t) (initState X Y)) := by
      rw [List.range_succ, List.foldl_append]
      simp
    rw [h1, ih, rowStep_spec]
    have hptr : ((List.range (m + 1)).map (cumLen X Y)).getD m 0 = cumLen X Y m :=
      getD_map_range (cumLen X Y) (Nat.lt_succ_self m) 0
    have hcum : cumLen X Y (m + 1) = cumLen X Y m + (rowEnts X Y m).length := by
      unfold cumLen
      rw [List.range_succ, List.map_append, List.sum_append]
      simp
    have hflat : ((List.range (m + 1)).map (rowEnts X Y)).flatten =
        ((List.range m).map (rowEnts X Y)).flatten ++ rowEnts X Y m := by
      rw [List.range_succ, List.map_append, List.flatten_append]
      simp
    have hrange : (List.range (m + 1 + 1)).map (cumLen X Y) =
        (List.range (m + 1)).map (cumLen X Y) ++ [cumLen X Y m + (rowEnts X Y m).length] := by
      rw [List.range_succ, List.map_append, ← hcum]
      simp
    rw [hptr, hflat, hrange]
    simp [List.append_assoc]

/-- runMultiply on the initial state yields the functional form of the
output buffers. -/
lemma runMultiply_spec (X : CSR_Matrix) (Y : CCS_Matrix) :
    runMultiply (initState X Y) =
      ⟨X, Y, (entsFlat X Y).map Prod.fst, (entsFlat X Y).map Prod.snd,
        (List.range (X.num_rows + 1)).map (cumLen X Y), (entsFlat X Y).length⟩ := by
  unfold runMultiply
  exact foldl_rowStep X Y X.num_rows

/-- With compatible dimensions the multiply succeeds and returns the
functional output matrix. -/
lemma multiply_ok (X : CSR_Matrix) (Y : CCS_Matrix) (hd : X.num_cols = Y.num_rows) :
    sparse_matrix_multiply X Y = .ok (zSpec X Y) := by
  unfold sparse_matrix_multiply
  rw [if_neg (not_not_intro hd)]
  rw [runMultiply_spec]
  rfl

/-! ### Properties of the functional output matrix -/

/-- One step of the cumulative row pointer. -/
lemma cumLen_succ (X : CSR_Matrix) (Y : CCS_Matrix) (i : Nat) :
    cumLen X Y (i + 1) = cumLen X Y i + (rowEnts X Y i).length := by
  unfold cumLen
  rw [List.range_succ, List.map_append, List.sum_append]
  simp

/-- The cumulative row pointers are monotone. -/
lemma cumLen_mono (X : CSR_Matrix) (Y : CCS_Matrix) :
    ∀ i i2, i ≤ i2 → cumLen X Y i ≤ cumLen X Y i2 := by
  intro i i2 h
  have key : ∀ k, cumLen X Y i ≤ cumLen X Y (i + k) := by
    intro k
    induction k with
    | zero => simp
    | succ k ih =>
      show cumLen X Y i ≤ cumLen X Y (i + k + 1)
      have := cumLen_succ X Y (i + k)
      omega
  have hk := key (i2 - i)
  rwa [Nat.add_sub_cancel' h] at hk

/-- The total number of emitted entries is the last cumulative pointer. -/
lemma entsFlat_length (X : CSR_Matrix) (Y : CCS_Matrix) :
    (entsFlat X Y).length = cumLen X Y X.num_rows := by
  unfold entsFlat cumLen
  rw [List.length_flatten, List.map_map]
  rfl

/-- The row pointers of the functional output matrix. -/
lemma zSpec_row_ptr_getD (X : CSR_Matrix) (Y : CCS_Matrix) (i : Nat)
    (hi : i ≤ X.num_rows) :
    (zSpec X Y).row_ptr.getD i 0 = cumLen X Y i :=
  getD_map_range (cumLen X Y) (by omega) 0

/-- Reading the emitted entries inside row i's slice. -/
lemma entsFlat_getD (X : CSR_Matrix) (Y : CCS_Matrix) (i : Nat) (hi : i < X.num_rows)
    (r : Nat) (hr : r < (rowEnts X Y i).length) :
    (entsFlat X Y).getD (cumLen X Y i + r) (0, 0) = (rowEnts X Y i).getD r (0, 0) := by
  unfold entsFlat
  have hL : i < ((List.range X.num_rows).map (rowEnts X Y)).length := by
    simpa using hi
  have hgetD : ((List.range X.num_rows).map (rowEnts X Y)).getD i [] = rowEnts X Y i :=
    getD_map_range (rowEnts X Y) hi []
  have htake : ((((List.range X.num_rows).map (rowEnts X Y)).take i).map List.length).sum =
      cumLen X Y i := by
    rw [← List.map_take, List.take_range, List.map_map]
    have hmin : min i X.num_rows = i := Nat.min_eq_left (Nat.le_of_lt hi)
    rw [hmin]
    rfl
  have := flatten_getD (0, 0) ((List.range X.num_rows).map (rowEnts X Y)) i hL r
    (by rwa [hgetD])
  rw [htake, hgetD] at this
  exact this

/-- Positions inside row i's slice stay inside the emitted entry list. -/
lemma slice_pos_lt_length (X : CSR_Matrix) (Y : CCS_Matrix) (i : Nat)
    (hi : i < X.num_rows) (r : Nat) (hr : r < (rowEnts X Y i).length) :
    cumLen X Y i + r < (entsFlat X Y).length := by
  rw [entsFlat_length]
  have h1 : cumLen X Y i + r < cumLen X Y (i + 1) := by
    have := cumLen_succ X Y i
    omega
  have h2 := cumLen_mono X Y (i + 1) X.num_rows (by omega)
  omega

/-- Membership in a row's entry list characterized. -/
lemma mem_rowEnts (X : CSR_Matrix) (Y : CCS_Matrix) (i : Nat) (pr : Int × Nat) :
    pr ∈ rowEnts X Y i ↔
      pr.2 < Y.num_cols ∧ dotProductAt X Y i pr.2 ≠ 0 ∧
        pr.1 = dotProductAt X Y i pr.2 := by
  unfold rowEnts
  rw [List.mem_filterMap]
  constructor
  · rintro ⟨j, hj, hg⟩
    rw [List.mem_range] at hj
    by_cases hd : dotProductAt X Y i j ≠ 0
    · rw [if_pos hd] at hg
      have hpr : pr = (dotProductAt X Y i j, j) := (Option.some.inj hg).symm
      rw [hpr]
      exact ⟨hj, hd, rfl⟩
    · rw [if_neg hd] at hg
      exact absurd hg (Option.noConfusion)
  · rintro ⟨h1, h2, h3⟩
    refine ⟨pr.2, List.mem_range.mpr h1, ?_⟩
    rw [if_pos h2]
    exact congrArg some (Prod.ext h3.symm rfl)

/-- A filterMap transports pairwise relations along its production rule. -/
lemma pairwise_filterMap_rel {α β : Type} {R : α → α → Prop} {S : β → β → Prop}
    (f : α → Option β)
    (hf : ∀ a b a2 b2, f a = some b → f a2 = some b2 → R a a2 → S b b2) :
    ∀ (l : List α), l.Pairwise R → (l.filterMap f).Pairwise S := by
  intro l
  induction l with
  | nil => intro _; simp
  | cons a l ih =>
    intro hp
    rcases List.pairwise_cons.mp hp with ⟨ha, hl⟩
    rw [List.filterMap_cons]
    cases hfa : f a with
    | none => exact ih hl
    | some b =>
      refine List.Pairwise.cons ?_ (ih hl)
      intro c hc
      rcases List.mem_filterMap.mp hc with ⟨a2, ha2, hfa2⟩
      exact hf a b a2 c hfa hfa2 (ha a2 ha2)

/-- The second components of a row's entries are strictly increasing. -/
lemma rowEnts_pairwise (X : CSR_Matrix) (Y : CCS_Matrix) (i : Nat) :
    List.Pairwise (fun u v : Int × Nat => u.2 < v.2) (rowEnts X Y i) := by
  unfold rowEnts
  refine pairwise_filterMap_rel _ ?_ _ (List.pairwise_lt_range Y.num_cols)
  intro a b a2 b2 hab hab2 hlt
  have h1 : b.2 = a := by
    by_cases hd : dotProductAt X Y i a ≠ 0
    · rw [if_pos hd] at hab
      rw [← Option.some.inj hab]
    · rw [if_neg hd] at hab
      exact absurd hab (Option.noConfusion)
  have h2 : b2.2 = a2 := by
    by_cases hd : dotProductAt X Y i a2 ≠ 0
    · rw [if_pos hd] at hab2
      rw [← Option.some.inj hab2]
    · rw [if_neg hd] at hab2
      exact absurd hab2 (Option.noConfusion)
  rw [h1, h2]
  exact hlt

/-- The dense form of the functional output at in-range cells is exactly
the merge-style dot product. -/
lemma zSpec_dense (X : CSR_Matrix) (Y : CCS_Matrix) (i j : Nat)
    (hi : i < X.num_rows) (hj : j < Y.num_cols) :
    (zSpec X Y).dense i j = dotProductAt X Y i j := by
  unfold CSR_Matrix.dense
  rw [zSpec_row_ptr_getD X Y i (by omega), zSpec_row_ptr_getD X Y (i + 1) (by omega)]
  rw [Finset.sum_Ico_eq_sum_range]
  have hlen : cumLen X Y (i + 1) - cumLen X Y i = (rowEnts X Y i).length := by
    have := cumLen_succ X Y i
    omega
  rw [hlen]
  have hsummand : ∀ r ∈ Finset.range (rowEnts X Y i).length,
      (if (zSpec X Y).col_ind.getD (cumLen X Y i + r) 0 = j
       then (zSpec X Y).val.getD (cumLen X Y i + r) 0 else 0) =
      (if ((rowEnts X Y i).getD r (0, 0)).2 = j
       then ((rowEnts X Y i).getD r (0, 0)).1 else 0) := by
    intro r hr
    rw [Finset.mem_range] at hr
    have hpos := slice_pos_lt_length X Y i hi r hr
    have hv : (zSpec X Y).val.getD (cumLen X Y i + r) 0 =
        ((rowEnts X Y i).getD r (0, 0)).1 := by
      show ((entsFlat X Y).map Prod.fst).getD (cumLen X Y i + r) 0 = _
      rw [getD_map_fst (entsFlat X Y) hpos, entsFlat_getD X Y i hi r hr]
    have hc : (zSpec X Y).col_ind.getD (cumLen X Y i + r) 0 =
        ((rowEnts X Y i).getD r (0, 0)).2 := by
      show ((entsFlat X Y).map Prod.snd).getD (cumLen X Y i + r) 0 = _
      rw [getD_map_snd (entsFlat X Y) hpos, entsFlat_getD X Y i hi r hr]
    rw [hv, hc]
  rw [Finset.sum_congr rfl hsummand]
  rw [sum_range_getD (0, 0) (fun pr => if pr.2 = j then pr.1 else 0) (rowEnts X Y i)]
  unfold rowEnts
  rw [sum_map_filterMap, sum_map_range]
  have hpt : ∀ b ∈ Finset.range Y.num_cols,
      (((if dotProductAt X Y i b ≠ 0
          then some (dotProductAt X Y i b, b) else none).map
            fun pr => if pr.2 = j then pr.1 else 0).getD 0) =
      (if b = j then dotProductAt X Y i b else 0) := by
    intro b _
    by_cases hbj : b = j
    · subst hbj
      by_cases hd : dotProductAt X Y i b ≠ 0
      · simp [hd]
      · push_neg at hd
        simp [hd]
    · by_cases hd : dotProductAt X Y i b ≠ 0
      · simp [hd, hbj]
      · push_neg at hd
        simp [hd, hbj]
  rw [Finset.sum_congr rfl hpt]
  rw [Finset.sum_ite_eq' (Finset.range Y.num_cols) j]
  rw [if_pos (Finset.mem_range.mpr hj)]

/-- Reading the values of the functional output inside row i's slice. -/
lemma zSpec_val_getD (X : CSR_Matrix) (Y : CCS_Matrix) (i : Nat) (hi : i < X.num_rows)
    (r : Nat) (hr : r < (rowEnts X Y i).length) :
    (zSpec X Y).val.getD (cumLen X Y i + r) 0 = ((rowEnts X Y i).getD r (0, 0)).1 := by
  show ((entsFlat X Y).map Prod.fst).getD (cumLen X Y i + r) 0 = _
  rw [getD_map_fst (entsFlat X Y) (slice_pos_lt_length X Y i hi r hr),
    entsFlat_getD X Y i hi r hr]

/-- Reading the column indices of the functional output inside row i's
slice. -/
lemma zSpec_col_getD (X : CSR_Matrix) (Y : CCS_Matrix) (i : Nat) (hi : i < X.num_rows)
    (r : Nat) (hr : r < (rowEnts X Y i).length) :
    (zSpec X Y).col_ind.getD (cumLen X Y i + r) 0 = ((rowEnts X Y i).getD r (0, 0)).2 := by
  show ((entsFlat X Y).map Prod.snd).getD (cumLen X Y i + r) 0 = _
  rw [getD_map_snd (entsFlat X Y) (slice_pos_lt_length X Y i hi r hr),
    entsFlat_getD X Y i hi r hr]

/-- An in-range getD read is a member of the list. -/
lemma getD_mem_of_lt {α : Type} (l : List α) (d : α) {n : Nat} (h : n < l.length) :
    l.getD n d ∈ l := by
  rw [List.getD_eq_getElem l d h]
  exact List.getElem_mem h

/-- Every emitted entry comes from some row's entry list. -/
lemma mem_entsFlat (X : CSR_Matrix) (Y : CCS_Matrix) {pr : Int × Nat}
    (h : pr ∈ entsFlat X Y) : ∃ i, i < X.num_rows ∧ pr ∈ rowEnts X Y i := by
  unfold entsFlat at h
  rcases List.mem_flatten.mp h with ⟨l, hl, hel⟩
  rcases List.mem_map.mp hl with ⟨i, hi, hEq⟩
  exact ⟨i, List.mem_range.mp hi, hEq ▸ hel⟩

/-- The functional output matrix is well-formed. -/
lemma zSpec_WF (X : CSR_Matrix) (Y : CCS_Matrix) : (zSpec X Y).WF := by
  refine ⟨?_, ?_, ?_, ?_, ?_, ?_, ?_⟩
  · show ((List.range (X.num_rows + 1)).map (cumLen X Y)).length = X.num_rows + 1
    simp
  · show ((List.range (X.num_rows + 1)).map (cumLen X Y)).getD 0 0 = 0
    rw [getD_map_range (cumLen X Y) (by omega) 0]
    simp [cumLen]
  · intro i hi
    have hi2 : i < X.num_rows := hi
    rw [zSpec_row_ptr_getD X Y i (by omega), zSpec_row_ptr_getD X Y (i + 1) (by omega)]
    exact cumLen_mono X Y i (i + 1) (Nat.le_succ i)
  · show ((List.range (X.num_rows + 1)).map (cumLen X Y)).getD X.num_rows 0 =
      ((entsFlat X Y).map Prod.fst).length
    rw [getD_map_range (cumLen X Y) (by omega) 0, List.length_map, entsFlat_length]
  · show ((entsFlat X Y).map Prod.snd).length = ((entsFlat X Y).map Prod.fst).length
    simp
  · intro i hi q hq p hpq hp hq2
    have hi2 : i < X.num_rows := hi
    rw [zSpec_row_ptr_getD X Y i (by omega)] at hp
    rw [zSpec_row_ptr_getD X Y (i + 1) (by omega)] at hq2
    have hcs := cumLen_succ X Y i
    have hr2 : q - cumLen X Y i < (rowEnts X Y i).length := by omega
    have hr1 : p - cumLen X Y i < (rowEnts X Y i).length := by omega
    have hpe : p = cumLen X Y i + (p - cumLen X Y i) := by omega
    have hqe : q = cumLen X Y i + (q - cumLen X Y i) := by omega
    rw [hpe, hqe, zSpec_col_getD X Y i hi2 _ hr1, zSpec_col_getD X Y i hi2 _ hr2]
    rw [List.getD_eq_getElem _ _ hr1, List.getD_eq_getElem _ _ hr2]
    exact List.pairwise_iff_getElem.mp (rowEnts_pairwise X Y i)
      (p - cumLen X Y i) (q - cumLen X Y i) hr1 hr2 (by omega)
  · intro p hp
    have hp2 : p < ((entsFlat X Y).map Prod.snd).length := hp
    rw [List.length_map] at hp2
    show ((entsFlat X Y).map Prod.snd).getD p 0 < Y.num_cols
    rw [getD_map_snd (entsFlat X Y) hp2]
    have hmem := getD_mem_of_lt (entsFlat X Y) (0, 0) hp2
    rcases mem_entsFlat X Y hmem with ⟨i, _, hrow⟩
    exact ((mem_rowEnts X Y i _).mp hrow).1

/-- The cells that hold an entry in the functional output are exactly
those with a non-zero merge dot product. -/
lemma zSpec_entry_iff (X : CSR_Matrix) (Y : CCS_Matrix) (i j : Nat)
    (hi : i < X.num_rows) (hj : j < Y.num_cols) :
    (∃ p, (zSpec X Y).row_ptr.getD i 0 ≤ p ∧ p < (zSpec X Y).row_ptr.getD (i + 1) 0 ∧
      (zSpec X Y).col_ind.getD p 0 = j) ↔ dotProductAt X Y i j ≠ 0 := by
  rw [zSpec_row_ptr_getD X Y i (by omega), zSpec_row_ptr_getD X Y (i + 1) (by omega)]
  have hcs := cumLen_succ X Y i
  constructor
  · rintro ⟨p, hp1, hp2, hp3⟩
    have hr : p - cumLen X Y i < (rowEnts X Y i).length := by omega
    have hpe : p = cumLen X Y i + (p - cumLen X Y i) := by omega
    rw [hpe, zSpec_col_getD X Y i hi _ hr] at hp3
    have hmem := getD_mem_of_lt (rowEnts X Y i) (0, 0) hr
    rw [mem_rowEnts] at hmem
    obtain ⟨_, hd, _⟩ := hmem
    rw [hp3] at hd
    exact hd
  · intro hd
    have hmem : (dotProductAt X Y i j, j) ∈ rowEnts X Y i :=
      (mem_rowEnts X Y i _).mpr ⟨hj, hd, rfl⟩
    rcases List.getElem_of_mem hmem with ⟨r, hr, hrEq⟩
    refine ⟨cumLen X Y i + r, Nat.le_add_right _ _, by omega, ?_⟩
    rw [zSpec_col_getD X Y i hi r hr, List.getD_eq_getElem _ _ hr, hrEq]

/-- Every stored value of the functional output is non-zero. -/
lemma zSpec_val_ne_zero (X : CSR_Matrix) (Y : CCS_Matrix) :
    ∀ v ∈ (zSpec X Y).val, v ≠ 0 := by
  intro v hv
  rcases List.mem_map.mp hv with ⟨pr, hpr, hEq⟩
  rcases mem_entsFlat X Y hpr with ⟨i, _, hrow⟩
  obtain ⟨_, hd, hfst⟩ := (mem_rowEnts X Y i pr).mp hrow
  rw [← hEq, hfst]
  exact hd

/-- Each row emits at most Y.num_cols entries. -/
lemma rowEnts_length_le (X : CSR_Matrix) (Y : CCS_Matrix) (i : Nat) :
    (rowEnts X Y i).length ≤ Y.num_cols := by
  unfold rowEnts
  have h := List.length_filterMap_le
    (fun j => if dotProductAt X Y i j ≠ 0
      then some (dotProductAt X Y i j, j) else none) (List.range Y.num_cols)
  simpa using h

/-- The total number of emitted entries is bounded by the number of
output cells. -/
lemma entsFlat_length_le (X : CSR_Matrix) (Y : CCS_Matrix) :
    (entsFlat X Y).length ≤ X.num_rows * Y.num_cols := by
  unfold entsFlat
  rw [List.length_flatten, List.map_map]
  have h := sum_map_le_length_mul (fun i => (rowEnts X Y i).length) Y.num_cols
    (List.range X.num_rows) (fun b _ => rowEnts_length_le X Y b)
  simpa [Function.comp] using h

/-! ### The dense collaborator -/

/-- Summing via a left fold over a range. -/
lemma foldl_add_range (f : Nat → Int) :
    ∀ n acc, (List.range n).foldl (fun a k => a + f k) acc =
      acc + ∑ k ∈ Finset.range n, f k := by
  intro n
  induction n with
  | zero => intro acc; simp
  | succ n ih =>
    intro acc
    rw [List.range_succ, List.foldl_append, ih]
    simp only [List.foldl_cons, List.foldl_nil]
    rw [Finset.sum_range_succ]
    ring

/-- Reading the dense form of a CRS matrix. -/
lemma CSR_toDense_getD (X : CSR_Matrix) {i k : Nat}
    (hi : i < X.num_rows) (hk : k < X.num_cols) :
    (X.toDense.getD i []).getD k 0 = X.dense i k := by
  unfold CSR_Matrix.toDense
  rw [getD_map_range _ hi, getD_map_range _ hk]

/-- Reading the dense form of a CCS matrix. -/
lemma CCS_toDense_getD (Y : CCS_Matrix) {i k : Nat}
    (hi : i < Y.num_rows) (hk : k < Y.num_cols) :
    (Y.toDense.getD i []).getD k 0 = Y.dense i k := by
  unfold CCS_Matrix.toDense
  rw [getD_map_range _ hi, getD_map_range _ hk]

/-- The dense triple-loop collaborator applied to the dense forms of the
operands returns the dense form of the functional sparse product. -/
lemma matrix_multiply_dense (X : CSR_Matrix) (Y : CCS_Matrix) (hX : X.WF) (hY : Y.WF)
    (hd : X.num_cols = Y.num_rows) :
    matrix_multiply X.toDense Y.toDense X.num_rows X.num_cols Y.num_rows Y.num_cols =
      Except.ok ((zSpec X Y).toDense) := by
  unfold matrix_multiply
  rw [if_neg (not_not_intro hd)]
  have hz : (zSpec X Y).toDense =
      (List.range X.num_rows).map fun i =>
        (List.range Y.num_cols).map fun j => (zSpec X Y).dense i j := rfl
  rw [hz]
  congr 1
  apply List.map_congr_left
  intro i hi
  rw [List.mem_range] at hi
  apply List.map_congr_left
  intro j hj
  rw [List.mem_range] at hj
  rw [foldl_add_range
    (fun k => (X.toDense.getD i []).getD k 0 * (Y.toDense.getD k []).getD j 0)
    X.num_cols 0]
  rw [zero_add, zSpec_dense X Y i j hi hj, dotProductAt_correct X Y hX hY i j hi hj]
  apply Finset.sum_congr rfl
  intro k hk
  rw [Finset.mem_range] at hk
  rw [CSR_toDense_getD X hi hk, CCS_toDense_getD Y (by omega) hj]

/-! ### Claim theorems -/

/-- Claim C1: for every well-formed CRS matrix X and CCS matrix Y with
X.cols = Y.rows, sparse_matrix_multiply returns a CRS matrix Z of shape
X.rows by Y.cols whose dense form satisfies
Z[i][j] = sum over k of X[i][k] * Y[k][j] for all in-range i, j. -/
theorem claim_C1_product_dense (X : CSR_Matrix) (Y : CCS_Matrix) (Z : CSR_Matrix)
    (hX : X.WF) (hY : Y.WF) (hd : X.num_cols = Y.num_rows)
    (hZ : sparse_matrix_multiply X Y = Except.ok Z) :
    Z.num_rows = X.num_rows ∧ Z.num_cols = Y.num_cols ∧
    ∀ i, i < X.num_rows → ∀ j, j < Y.num_cols →
      Z.dense i j = ∑ k ∈ Finset.range X.num_cols, X.dense i k * Y.dense k j := by
  have hz2 : Z = zSpec X Y := by
    rw [multiply_ok X Y hd] at hZ
    exact (Except.ok.inj hZ).symm
  subst hz2
  refine ⟨rfl, rfl, ?_⟩
  intro i hi j hj
  rw [zSpec_dense X Y i j hi hj]
  exact dotProductAt_correct X Y hX hY i j hi hj

theorem claim_C1_witness :
    (exX.WF ∧ exY.WF ∧ exX.num_cols = exY.num_rows ∧
      sparse_matrix_multiply exX exY = Except.ok exZ) ∧
    (exZ.num_rows = exX.num_rows ∧ exZ.num_cols = exY.num_cols ∧
      ∀ i, i < exX.num_rows → ∀ j, j < exY.num_cols →
        exZ.dense i j = ∑ k ∈ Finset.range exX.num_cols, exX.dense i k * exY.dense k j) :=
  ⟨⟨by decide, by decide, rfl, rfl⟩,
    claim_C1_product_dense exX exY exZ (by decide) (by decide) rfl rfl⟩

/-- Claim C2: for every well-formed CRS matrix X and CCS matrix Y with
X.cols = Y.rows, the dense form of Z = sparse_matrix_multiply X Y equals
the result of the dense triple-loop collaborator matrix_multiply applied
to the dense forms of X and Y. -/
theorem claim_C2_refines_dense (X : CSR_Matrix) (Y : CCS_Matrix) (Z : CSR_Matrix)
    (hX : X.WF) (hY : Y.WF) (hd : X.num_cols = Y.num_rows)
    (hZ : sparse_matrix_multiply X Y = Except.ok Z) :
    matrix_multiply X.toDense Y.toDense X.num_rows X.num_cols Y.num_rows Y.num_cols =
      Except.ok Z.toDense := by
  have hz2 : Z = zSpec X Y := by
    rw [multiply_ok X Y hd] at hZ
    exact (Except.ok.inj hZ).symm
  subst hz2
  exact matrix_multiply_dense X Y hX hY hd

theorem claim_C2_witness :
    (exX.WF ∧ exY.WF ∧ exX.num_cols = exY.num_rows ∧
      sparse_matrix_multiply exX exY = Except.ok exZ) ∧
    matrix_multiply exX.toDense exY.toDense
        exX.num_rows exX.num_cols exY.num_rows exY.num_cols =
      Except.ok exZ.toDense :=
  ⟨⟨by decide, by decide, rfl, rfl⟩,
    claim_C2_refines_dense exX exY exZ (by decide) (by decide) rfl rfl⟩

/-- Claim C3 is false of the code: on the well-formed, dimension-compatible
pair oobX (one stored entry) and oobY (an empty column whose slice ends at
the end of the row_ind array), the merge co-traversal evaluates the while
condition Y.row_ind[y_row] < X.col_ind[x_col] before the bound check
y_row < Y.col_ptr[j + 1], so it reads Y.row_ind at position 0 while
Y.row_ind has length 0 — a read past the end of the array, contradicting
the claim that no read goes out of bounds. -/
theorem claim_C3_oob_read :
    oobX.WF ∧ oobY.WF ∧ oobX.num_cols = oobY.num_rows ∧
    (∃ r ∈ cellYReads oobX oobY 0 0, oobY.row_ind.length ≤ r) := by
  refine ⟨by decide, by decide, rfl, ?_⟩
  decide

/-- Claim C4: for every well-formed CRS matrix X and CCS matrix Y with
X.cols = Y.rows, the output of sparse_matrix_multiply is itself a
well-formed CRS matrix: row_ptr is non-decreasing, starts at 0 and ends
at the number of stored values, col_ind is strictly increasing within
each row slice and bounded by the number of columns. -/
theorem claim_C4_output_wellformed (X : CSR_Matrix) (Y : CCS_Matrix) (Z : CSR_Matrix)
    (hX : X.WF) (hY : Y.WF) (hd : X.num_cols = Y.num_rows)
    (hZ : sparse_matrix_multiply X Y = Except.ok Z) : Z.WF := by
  have hz2 : Z = zSpec X Y := by
    rw [multiply_ok X Y hd] at hZ
    exact (Except.ok.inj hZ).symm
  subst hz2
  exact zSpec_WF X Y

theorem claim_C4_witness :
    (exX.WF ∧ exY.WF ∧ exX.num_cols = exY.num_rows ∧
      sparse_matrix_multiply exX exY = Except.ok exZ) ∧ exZ.WF :=
  ⟨⟨by decide, by decide, rfl, rfl⟩,
    claim_C4_output_wellformed exX exY exZ (by decide) (by decide) rfl rfl⟩

/-- Claim C5: for every well-formed CRS matrix X and CCS matrix Y with
X.cols = Y.rows, every stored value of the output is non-zero, and the
output stores an entry at cell (i, j) exactly when the dot product of
row i of X and column j of Y is non-zero. -/
theorem claim_C5_no_explicit_zeros (X : CSR_Matrix) (Y : CCS_Matrix) (Z : CSR_Matrix)
    (hX : X.WF) (hY : Y.WF) (hd : X.num_cols = Y.num_rows)
    (hZ : sparse_matrix_multiply X Y = Except.ok Z) :
    (∀ v ∈ Z.val, v ≠ 0) ∧
    (∀ i, i < X.num_rows → ∀ j, j < Y.num_cols →
      ((∃ p, Z.row_ptr.getD i 0 ≤ p ∧ p < Z.row_ptr.getD (i + 1) 0 ∧
          Z.col_ind.getD p 0 = j) ↔
        (∑ k ∈ Finset.range X.num_cols, X.dense i k * Y.dense k j) ≠ 0)) := by
  have hz2 : Z = zSpec X Y := by
    rw [multiply_ok X Y hd] at hZ
    exact (Except.ok.inj hZ).symm
  subst hz2
  refine ⟨zSpec_val_ne_zero X Y, ?_⟩
  intro i hi j hj
  rw [zSpec_entry_iff X Y i j hi hj, dotProductAt_correct X Y hX hY i j hi hj]

theorem claim_C5_witness :
    (exX.WF ∧ exY.WF ∧ exX.num_cols = exY.num_rows ∧
      sparse_matrix_multiply exX exY = Except.ok exZ) ∧
    ((∀ v ∈ exZ.val, v ≠ 0) ∧
    (∀ i, i < exX.num_rows → ∀ j, j < exY.num_cols →
      ((∃ p, exZ.row_ptr.getD i 0 ≤ p ∧ p < exZ.row_ptr.getD (i + 1) 0 ∧
          exZ.col_ind.getD p 0 = j) ↔
        (∑ k ∈ Finset.range exX.num_cols, exX.dense i k * exY.dense k j) ≠ 0))) :=
  ⟨⟨by decide, by decide, rfl, rfl⟩,
    claim_C5_no_explicit_zeros exX exY exZ (by decide) (by decide) rfl rfl⟩

/-- Claim C6: for every CRS matrix X and CCS matrix Y,
sparse_matrix_multiply fails with DimensionMismatch exactly when
X.cols and Y.rows disagree, and in that case no output value is
produced; the dense collaborator matrix_multiply is governed by the
same check. -/
theorem claim_C6_dimension_mismatch :
    (∀ (X : CSR_Matrix) (Y : CCS_Matrix),
      sparse_matrix_multiply X Y = Except.error MatrixError.DimensionMismatch ↔
        X.num_cols ≠ Y.num_rows) ∧
    (∀ (XD YD : List (List Int)) (xr xc yr yc : Nat),
      matrix_multiply XD YD xr xc yr yc = Except.error MatrixError.DimensionMismatch ↔
        xc ≠ yr) := by
  constructor
  · intro X Y
    constructor
    · intro h hc
      rw [multiply_ok X Y hc] at h
      exact Except.noConfusion h
    · intro h
      unfold sparse_matrix_multiply
      rw [if_pos h]
  · intro XD YD xr xc yr yc
    constructor
    · intro h hc
      unfold matrix_multiply at h
      rw [if_neg (not_not_intro hc)] at h
      exact Except.noConfusion h
    · intro h
      unfold matrix_multiply
      rw [if_pos h]

/-- Claim C7: for every well-formed CRS matrix X and CCS matrix Y with
X.cols = Y.rows, the number of emitted entries never exceeds
X.rows * Y.cols (so every scratch-buffer write lands at an in-bounds
index of the buffers of that size), and exactly the realized entries are
copied into the right-sized output: the value and column-index buffers
have the same length, which the final row pointer records. -/
theorem claim_C7_nnz_bound (X : CSR_Matrix) (Y : CCS_Matrix) (Z : CSR_Matrix)
    (hX : X.WF) (hY : Y.WF) (hd : X.num_cols = Y.num_rows)
    (hZ : sparse_matrix_multiply X Y = Except.ok Z) :
    Z.val.length ≤ X.num_rows * Y.num_cols ∧
    Z.col_ind.length = Z.val.length ∧
    Z.row_ptr.getD X.num_rows 0 = Z.val.length := by
  have hz2 : Z = zSpec X Y := by
    rw [multiply_ok X Y hd] at hZ
    exact (Except.ok.inj hZ).symm
  subst hz2
  refine ⟨?_, ?_, ?_⟩
  · show ((entsFlat X Y).map Prod.fst).length ≤ X.num_rows * Y.num_cols
    rw [List.length_map]
    exact entsFlat_length_le X Y
  · show ((entsFlat X Y).map Prod.snd).length = ((entsFlat X Y).map Prod.fst).length
    simp
  · show ((List.range (X.num_rows + 1)).map (cumLen X Y)).getD X.num_rows 0 =
      ((entsFlat X Y).map Prod.fst).length
    rw [getD_map_range (cumLen X Y) (by omega) 0, List.length_map, entsFlat_length]

theorem claim_C7_witness :
    (exX.WF ∧ exY.WF ∧ exX.num_cols = exY.num_rows ∧
      sparse_matrix_multiply exX exY = Except.ok exZ) ∧
    (exZ.val.length ≤ exX.num_rows * exY.num_cols ∧
      exZ.col_ind.length = exZ.val.length ∧
      exZ.row_ptr.getD exX.num_rows 0 = exZ.val.length) :=
  ⟨⟨by decide, by decide, rfl, rfl⟩,
    claim_C7_nnz_bound exX exY exZ (by decide) (by decide) rfl rfl⟩

/-- Claim C8 as stated is false of the code: on the test matrices built
in main, row 0 of the dense form of the product is [6, 0, 20, 8, 0, 0],
not [6, 0, 0, 8, 0, 0], because X row 0 has the entry 4 at column 3 and
Y column 2 has the entry 5 at row 3, so Z[0][2] = 4 * 5 = 20. -/
theorem claim_C8_counterexample :
    ∃ Z, sparse_matrix_multiply mainX mainY = Except.ok Z ∧
      Z.toDense.getD 0 [] ≠ [6, 0, 0, 8, 0, 0] := by
  refine ⟨zSpec mainX mainY, multiply_ok mainX mainY rfl, ?_⟩
  decide

/-- Claim C8, amended: on the test matrices built in main, row 0 of the
dense form of sparse_matrix_multiply mainX mainY is [6, 0, 20, 8, 0, 0]. -/
theorem claim_C8_row0_amended :
    ∃ Z, sparse_matrix_multiply mainX mainY = Except.ok Z ∧
      Z.toDense.getD 0 [] = [6, 0, 20, 8, 0, 0] := by
  refine ⟨zSpec mainX mainY, multiply_ok mainX mainY rfl, ?_⟩
  decide

/-- Claim C9: for every well-formed CRS matrix X and CCS matrix Y with
X.cols = Y.rows, running the multiply loops leaves both operands
unchanged: in the state-passing embedding, whose steps write only to the
scratch output buffers exactly as the C code does, the operand fields of
the final state equal the initial operands; the embedded operation is a
pure function of its inputs. -/
theorem claim_C9_operands_unchanged (X : CSR_Matrix) (Y : CCS_Matrix)
    (hX : X.WF) (hY : Y.WF) (hd : X.num_cols = Y.num_rows) :
    (runMultiply (initState X Y)).X = X ∧ (runMultiply (initState X Y)).Y = Y := by
  rw [runMultiply_spec]
  exact ⟨rfl, rfl⟩

theorem claim_C9_witness :
    (exX.WF ∧ exY.WF ∧ exX.num_cols = exY.num_rows) ∧
    ((runMultiply (initState exX exY)).X = exX ∧
      (runMultiply (initState exX exY)).Y = exY) :=
  ⟨⟨by decide, by decide, rfl⟩,
    claim_C9_operands_unchanged exX exY (by decide) (by decide) rfl⟩

/-- Claim C10: for every well-formed CRS matrix X and CCS matrix Y with
X.cols = Y.rows, the multiply terminates: the embedded multiply returns
a result, the cursor-advance loop only moves the cursor forward and,
when started inside Y's column slice, keeps it bounded by the end of the
slice, and the loop stabilizes within its exact fuel e - y, so every
larger fuel gives the same cursor — the while loop exits after at most
e - y iterations. -/
theorem claim_C10_termination (X : CSR_Matrix) (Y : CCS_Matrix)
    (hX : X.WF) (hY : Y.WF) (hd : X.num_cols = Y.num_rows) :
    (∃ Z, sparse_matrix_multiply X Y = Except.ok Z) ∧
    (∀ t e y, y ≤ advanceY Y.row_ind t e (e - y) y ∧
      (y ≤ e → advanceY Y.row_ind t e (e - y) y ≤ e)) ∧
    (∀ t e y fuel, e - y ≤ fuel →
      advanceY Y.row_ind t e fuel y = advanceY Y.row_ind t e (e - y) y) := by
  refine ⟨⟨zSpec X Y, multiply_ok X Y hd⟩, ?_, ?_⟩
  · intro t e y
    exact ⟨le_advanceY Y.row_ind t e (e - y) y,
      fun h => advanceY_le Y.row_ind t e (e - y) y h⟩
  · intro t e y fuel h
    exact advanceY_fuel_ge Y.row_ind t e fuel y h

theorem claim_C10_witness :
    (exX.WF ∧ exY.WF ∧ exX.num_cols = exY.num_rows) ∧
    ((∃ Z, sparse_matrix_multiply exX exY = Except.ok Z) ∧
    (∀ t e y, y ≤ advanceY exY.row_ind t e (e - y) y ∧
      (y ≤ e → advanceY exY.row_ind t e (e - y) y ≤ e)) ∧
    (∀ t e y fuel, e - y ≤ fuel →
      advanceY exY.row_ind t e fuel y = advanceY exY.row_ind t e (e - y) y)) :=
  ⟨⟨by decide, by decide, rfl⟩,
    claim_C10_termination exX exY (by decide) (by decide) rfl⟩
